import Mathlib

/-!
Shallow embedding of `src/upload_vimeo.py` (sashagitar/vimeo-uploader).

The SQLite table `videos` is modelled as a list of `VideoRecord`; SQL
queries become list filters.  The store invariant declared by the data
model (ids unique and ascending) is the predicate `DBSorted`.  The
filesystem is a predicate `String → Bool` (`os.path.exists`), and the
Vimeo client is a record of three fallible operations returning
`Except` values, mirroring the three API calls made by `upload_video`.
Wall-clock timing, logging and the tqdm progress bar are observability
only and are not modelled.  The `while rows:` loop of
`process_videos_from_database` is embedded with explicit fuel; that the
fuel bound suffices is proved as a theorem.
-/

namespace VimeoUploader

/-- A row of the `videos` table.  Nullable SQL columns are `Option`. -/
structure VideoRecord where
  id : Nat
  upload_url : Option String
  file_path : String
  title : String
  description : String
  vimeo_link : Option String
deriving DecidableEq

/-- The `videos` table: a list of rows, id-sorted for well-formed stores. -/
abbrev DB := List VideoRecord

/-- A record is pending iff `upload_url IS NOT NULL AND vimeo_link IS NULL`,
exactly the WHERE clause of the batch queries. -/
def pendingB (r : VideoRecord) : Bool :=
  r.upload_url.isSome && r.vimeo_link.isNone

/-- The `id > ?` clause of the batch query; `none` means the clause is
absent (the query of the `else` branch at line 137). -/
def afterP : Option Nat → VideoRecord → Bool
  | none, _ => true
  | some a, r => a < r.id

/-- All pending rows beyond the cursor, in table (= id) order. -/
def pendingFilter (after : Option Nat) (db : DB) : List VideoRecord :=
  List.filter (fun r => afterP after r && pendingB r) db

/-- One `SELECT ... WHERE id > ? AND upload_url IS NOT NULL AND vimeo_link
IS NULL ORDER BY id ASC LIMIT ?` query (lines 134, 137 and 168). -/
def fetchBatch (db : DB) (after : Option Nat) (limit : Nat) : List VideoRecord :=
  (pendingFilter after db).take limit

/-- Python truthiness of `if last_processed_video_id:` at line 133: the
filtered query runs only when the resume id is non-`None` and non-zero. -/
def firstAfter : Option Nat → Option Nat
  | none => none
  | some a => if a = 0 then none else some a

/-- `get_last_processed_video` (lines 98-115): `SELECT id FROM videos WHERE
vimeo_link IS NOT NULL ORDER BY id DESC LIMIT 1`, i.e. the maximum id among
rows with a non-null link, or `none` when there is no such row. -/
def get_last_processed_video (db : DB) : Option Nat :=
  (List.map (fun r => r.id) (List.filter (fun r => r.vimeo_link.isSome) db)).max?

/-- `get_video_path` (lines 15-32): `SELECT file_path FROM videos WHERE
upload_url = ?` followed by `fetchone`, i.e. the first matching row. -/
def get_video_path (db : DB) (upload_url : String) : Option String :=
  (List.find? (fun r => r.upload_url == some upload_url) db).map
    (fun r => r.file_path)

/-- `update_video_with_vimeo_link` (lines 49-68): `UPDATE videos SET
vimeo_link = ? WHERE file_path = ?` touches every row whose path matches. -/
def update_video_with_vimeo_link (db : DB) (file_path : String)
    (vimeo_link : Option String) : DB :=
  List.map
    (fun r => if r.file_path = file_path
              then { r with vimeo_link := vimeo_link } else r) db

/-- The Vimeo client seen through the three calls `upload_video` makes:
`client.upload` (returns a uri), `client.patch` (sets visibility), and the
link retrieval `client.get(...).json().get('link')` (whose payload may lack
the field, hence `Option String`).  Each call may raise, modelled as
`Except.error`. -/
structure VimeoClient where
  upload : String → String → String → Except String String
  patchVisibility : String → Except String Unit
  getLink : String → Except String (Option String)

/-- The body of the `try:` block of `upload_video` (lines 80-92), before
the `except` handler is applied: any raised error propagates. -/
def upload_video_steps (client : VimeoClient) (video_file_path : String)
    (title : String) (description : String) : Except String (Option String) := do
  let uri ← client.upload video_file_path title description
  let _ ← client.patchVisibility uri
  client.getLink uri

/-- `upload_video` (lines 70-96): the `except Exception` handler converts
every raised error into `None`. -/
def upload_video (client : VimeoClient) (video_file_path : String)
    (title : String) (description : String) : Option String :=
  match upload_video_steps client video_file_path title description with
  | Except.ok l => l
  | Except.error _ => none

/-- The upload capability as the processing loop consumes it. -/
def uploadFn (client : VimeoClient) : String → String → String → Option String :=
  fun p t d => upload_video client p t d

/-- The body of `for row in rows:` (lines 144-164) as a store transformer:
skip when the file is missing; otherwise upload, and on a truthy link
(`if vimeo_link:` — non-`None` and non-empty) write it back. -/
def applyRow (fs : String → Bool) (upl : String → String → String → Option String)
    (db : DB) (row : VideoRecord) : DB :=
  if fs row.file_path then
    match upl row.file_path row.title row.description with
    | some l => if l = "" then db
                else update_video_with_vimeo_link db row.file_path (some l)
    | none => db
  else db

/-- The effect of processing one fetched row on one stored row; the
condition inspects only the fetched row, so the loop body is a map. -/
def rowEffect (fs : String → Bool) (upl : String → String → String → Option String)
    (row : VideoRecord) (r : VideoRecord) : VideoRecord :=
  if fs row.file_path then
    match upl row.file_path row.title row.description with
    | some l => if l = "" then r
                else (if r.file_path = row.file_path
                      then { r with vimeo_link := some l } else r)
    | none => r
  else r

/-- The composite effect of a whole batch on one stored row. -/
def batchEffect (fs : String → Bool) (upl : String → String → String → Option String)
    (rows : List VideoRecord) (r : VideoRecord) : VideoRecord :=
  rows.foldl (fun acc row => rowEffect fs upl row acc) r

/-- Processing one fetched batch in order (the inner `for` loop). -/
def processBatch (fs : String → Bool) (upl : String → String → String → Option String)
    (db : DB) (rows : List VideoRecord) : DB :=
  rows.foldl (applyRow fs upl) db

/-- `rows[-1]`: the last element of a non-empty fetched batch. -/
def lastRec : VideoRecord → List VideoRecord → VideoRecord
  | r, [] => r
  | _, r :: rs => lastRec r rs

/-- The `while rows:` loop (lines 142-170) with explicit fuel.  Returns the
final store and the concatenation of all fetched batches (the rows the run
processed), or `none` when the fuel runs out.  After a batch, the next
query's cursor is the id of the batch's last row (line 167). -/
def runLoop (fs : String → Bool) (upl : String → String → String → Option String)
    (limit : Nat) : Nat → DB → List VideoRecord → Option (DB × List VideoRecord)
  | 0, _, _ => none
  | _ + 1, db, [] => some (db, [])
  | fuel + 1, db, row :: rest =>
    let db' := processBatch fs upl db (row :: rest)
    match runLoop fs upl limit fuel db'
        (fetchBatch db' (some (lastRec row rest).id) limit) with
    | none => none
    | some (dbF, trace) => some (dbF, (row :: rest) ++ trace)

/-- `process_videos_from_database` (lines 117-172): seed the first query
from `get_last_processed_video` through Python truthiness, then loop. -/
def process_videos_from_database (fs : String → Bool) (client : VimeoClient)
    (db : DB) (batch_size : Nat) (fuel : Nat) : Option (DB × List VideoRecord) :=
  runLoop fs (uploadFn client) batch_size fuel db
    (fetchBatch db (firstAfter (get_last_processed_video db)) batch_size)

/-- The fetched rows on which `upload_video` was actually invoked: those
that passed the `os.path.exists` check at line 147. -/
def attemptedUploads (fs : String → Bool) (trace : List VideoRecord) :
    List VideoRecord :=
  trace.filter (fun r => fs r.file_path)

/-- Store well-formedness from the data model: ids strictly ascending. -/
def DBSorted (db : DB) : Prop :=
  List.Pairwise (fun a b => a.id < b.id) db

/-- No two rows share a `file_path` (the uniqueness §9 calls fragile). -/
def PathsDistinct (db : DB) : Prop :=
  List.Pairwise (fun a b => a.file_path ≠ b.file_path) db

/-- The rows a fresh run is responsible for: pending rows beyond the
truthiness-filtered resume point. -/
def pendingAboveResume (db : DB) : List VideoRecord :=
  pendingFilter (firstAfter (get_last_processed_video db)) db

/-- What one pass of the processing loop can do to a stored row: the read
columns (`id`, `upload_url`, `file_path`) are never written, `vimeo_link`
is either kept or set to a truthy (non-empty) string, and a row whose file
is absent from disk is untouched. -/
def EffectOk (fs : String → Bool) (e : VideoRecord → VideoRecord) : Prop :=
  ∀ r : VideoRecord,
    (e r).id = r.id ∧ (e r).upload_url = r.upload_url ∧
    (e r).file_path = r.file_path ∧
    ((e r).vimeo_link = r.vimeo_link ∨
      ∃ l : String, (e r).vimeo_link = some l ∧ l ≠ "") ∧
    (fs r.file_path = false → e r = r)

/-- A filesystem on which every path exists. -/
def fsAll : String → Bool := fun _ => true

/-- A client whose three calls all succeed, producing link `"L-" ++ uri`. -/
def clientOk : VimeoClient where
  upload := fun p _ _ => Except.ok (String.append "uri-" p)
  patchVisibility := fun _ => Except.ok ()
  getLink := fun u => Except.ok (some (String.append "L-" u))

/-- A client whose transfer step raises for file `"f1"` and succeeds
otherwise. -/
def clientFail1 : VimeoClient where
  upload := fun p _ _ =>
    if p = "f1" then Except.error "network" else Except.ok (String.append "uri-" p)
  patchVisibility := fun _ => Except.ok ()
  getLink := fun u => Except.ok (some (String.append "L-" u))

/-- A client whose transfer step raises for file `"f2"` and succeeds
otherwise. -/
def clientFail2 : VimeoClient where
  upload := fun p _ _ =>
    if p = "f2" then Except.error "network" else Except.ok (String.append "uri-" p)
  patchVisibility := fun _ => Except.ok ()
  getLink := fun u => Except.ok (some (String.append "L-" u))

/-- A client whose transfer step always raises. -/
def clientDown : VimeoClient where
  upload := fun _ _ _ => Except.error "refused"
  patchVisibility := fun _ => Except.ok ()
  getLink := fun _ => Except.ok none

/-- Store for claim C1: record 1 pending, record 2 pending; with
`clientFail1` a run completes record 2 while record 1 stays pending. -/
def dbC1 : DB :=
  [⟨1, some "u1", "f1", "t1", "d1", none⟩,
   ⟨2, some "u2", "f2", "t2", "d2", none⟩]

/-- The store `dbC1` after the first run: record 2 completed. -/
def dbC1' : DB :=
  [⟨1, some "u1", "f1", "t1", "d1", none⟩,
   ⟨2, some "u2", "f2", "t2", "d2", some "L-uri-f2"⟩]

/-- Store for claim C2: records 1..5 completed, records 6..10 pending. -/
def dbC2 : DB :=
  [⟨1, some "u1", "p1", "t1", "d1", some "v1"⟩,
   ⟨2, some "u2", "p2", "t2", "d2", some "v2"⟩,
   ⟨3, some "u3", "p3", "t3", "d3", some "v3"⟩,
   ⟨4, some "u4", "p4", "t4", "d4", some "v4"⟩,
   ⟨5, some "u5", "p5", "t5", "d5", some "v5"⟩,
   ⟨6, some "u6", "p6", "t6", "d6", none⟩,
   ⟨7, some "u7", "p7", "t7", "d7", none⟩,
   ⟨8, some "u8", "p8", "t8", "d8", none⟩,
   ⟨9, some "u9", "p9", "t9", "d9", none⟩,
   ⟨10, some "u10", "p10", "t10", "d10", none⟩]

/-- The pending tail of `dbC2`: records 6..10. -/
def pendC2 : List VideoRecord :=
  [⟨6, some "u6", "p6", "t6", "d6", none⟩,
   ⟨7, some "u7", "p7", "t7", "d7", none⟩,
   ⟨8, some "u8", "p8", "t8", "d8", none⟩,
   ⟨9, some "u9", "p9", "t9", "d9", none⟩,
   ⟨10, some "u10", "p10", "t10", "d10", none⟩]

/-- Store for the C3 counterexample: two pending records sharing one
`file_path`, so the write-back for the first also completes the second. -/
def dbPair : DB :=
  [⟨1, some "u1", "p", "t1", "d1", none⟩,
   ⟨2, some "u2", "p", "t2", "d2", none⟩]

/-- Store for claim C4: a batch of three pending records. -/
def dbC4 : DB :=
  [⟨1, some "u1", "f1", "t1", "d1", none⟩,
   ⟨2, some "u2", "f2", "t2", "d2", none⟩,
   ⟨3, some "u3", "f3", "t3", "d3", none⟩]

/-- Store for the C5 witness: one pending record whose file is absent. -/
def dbC5 : DB := [⟨1, some "u1", "missing", "t1", "d1", none⟩]

/-- A filesystem on which only the path `"missing"` is absent. -/
def fsNoMissing : String → Bool := fun p => p != "missing"

/-- Store with record 1 completed and record 2 pending: the pending record
sits above every completed id, so a fresh run must fetch it. -/
def dbC1b : DB :=
  [⟨1, some "u1", "g1", "t1", "d1", some "v1"⟩,
   ⟨2, some "u2", "g2", "t2", "d2", none⟩]

instance (db : DB) : Decidable (DBSorted db) :=
  inferInstanceAs (Decidable (List.Pairwise _ db))

instance (db : DB) : Decidable (PathsDistinct db) :=
  inferInstanceAs (Decidable (List.Pairwise _ db))

/-- The per-row loop body is a pointwise map over the store. -/
theorem applyRow_eq_map (fs : String → Bool)
    (upl : String → String → String → Option String) (db : DB)
    (row : VideoRecord) :
    applyRow fs upl db row = db.map (rowEffect fs upl row) := by
  unfold applyRow rowEffect update_video_with_vimeo_link
  cases hfs : fs row.file_path
  · simp
  · cases hu : upl row.file_path row.title row.description with
    | none => simp
    | some l =>
      by_cases hl : l = "" <;> simp [hl]

/-- A row whose path differs from the fetched row's path is untouched. -/
theorem rowEffect_ne (fs : String → Bool)
    (upl : String → String → String → Option String)
    (row r : VideoRecord) (h : r.file_path ≠ row.file_path) :
    rowEffect fs upl row r = r := by
  unfold rowEffect
  cases fs row.file_path
  · rfl
  · cases upl row.file_path row.title row.description with
    | none => rfl
    | some l =>
      by_cases hl : l = "" <;> simp [hl, h]

theorem effectOk_id (fs : String → Bool) : EffectOk fs (fun r => r) := by
  intro r
  exact ⟨rfl, rfl, rfl, Or.inl rfl, fun _ => rfl⟩

theorem effectOk_comp (fs : String → Bool) (e₁ e₂ : VideoRecord → VideoRecord)
    (h₁ : EffectOk fs e₁) (h₂ : EffectOk fs e₂) :
    EffectOk fs (fun r => e₂ (e₁ r)) := by
  intro r
  obtain ⟨hid₁, hurl₁, hpath₁, hlink₁, hfs₁⟩ := h₁ r
  obtain ⟨hid₂, hurl₂, hpath₂, hlink₂, hfs₂⟩ := h₂ (e₁ r)
  refine ⟨hid₂.trans hid₁, hurl₂.trans hurl₁, hpath₂.trans hpath₁, ?_, ?_⟩
  · rcases hlink₂ with h | ⟨l, hl, hne⟩
    · rcases hlink₁ with h' | ⟨l, hl, hne⟩
      · exact Or.inl (h.trans h')
      · exact Or.inr ⟨l, h.trans hl, hne⟩
    · exact Or.inr ⟨l, hl, hne⟩
  · intro hmiss
    have h1 : e₁ r = r := hfs₁ hmiss
    show e₂ (e₁ r) = r
    rw [h1]
    exact (h₂ r).2.2.2.2 hmiss

theorem rowEffect_effectOk (fs : String → Bool)
    (upl : String → String → String → Option String) (row : VideoRecord) :
    EffectOk fs (rowEffect fs upl row) := by
  intro r
  unfold rowEffect
  cases hfs : fs row.file_path
  · exact ⟨rfl, rfl, rfl, Or.inl rfl, fun _ => rfl⟩
  · cases hu : upl row.file_path row.title row.description with
    | none => exact ⟨rfl, rfl, rfl, Or.inl rfl, fun _ => rfl⟩
    | some l =>
      by_cases hl : l = ""
      · simp only [hl, if_pos rfl]
        exact ⟨rfl, rfl, rfl, Or.inl rfl, fun _ => rfl⟩
      · simp only [if_neg hl]
        by_cases hp : r.file_path = row.file_path
        · simp only [if_pos hp]
          refine ⟨rfl, rfl, rfl, Or.inr ⟨l, rfl, hl⟩, ?_⟩
          intro hmiss
          rw [hp] at hmiss
          rw [hmiss] at hfs
          cases hfs
        · simp only [if_neg hp]
          exact ⟨rfl, rfl, rfl, Or.inl rfl, fun _ => rfl⟩

theorem batchEffect_nil (fs : String → Bool)
    (upl : String → String → String → Option String) (r : VideoRecord) :
    batchEffect fs upl [] r = r := rfl

theorem batchEffect_cons (fs : String → Bool)
    (upl : String → String → String → Option String)
    (row : VideoRecord) (rs : List VideoRecord) (r : VideoRecord) :
    batchEffect fs upl (row :: rs) r = batchEffect fs upl rs (rowEffect fs upl row r) :=
  rfl

theorem batchEffect_effectOk (fs : String → Bool)
    (upl : String → String → String → Option String) (rows : List VideoRecord) :
    EffectOk fs (batchEffect fs upl rows) := by
  induction rows with
  | nil => exact effectOk_id fs
  | cons row rs ih =>
    have h := effectOk_comp fs (rowEffect fs upl row) (batchEffect fs upl rs)
      (rowEffect_effectOk fs upl row) ih
    intro r
    exact h r

/-- A stored row whose path occurs in none of the batch's rows is left
exactly as it was. -/
theorem batchEffect_not_mem (fs : String → Bool)
    (upl : String → String → String → Option String)
    (rows : List VideoRecord) (r : VideoRecord)
    (h : ∀ row ∈ rows, r.file_path ≠ row.file_path) :
    batchEffect fs upl rows r = r := by
  induction rows with
  | nil => rfl
  | cons row rs ih =>
    rw [batchEffect_cons, rowEffect_ne fs upl row r (h row (List.mem_cons_self row rs))]
    exact ih (fun x hx => h x (List.mem_cons_of_mem row hx))

/-- Processing a batch maps the stored rows through `batchEffect`. -/
theorem processBatch_eq_map (fs : String → Bool)
    (upl : String → String → String → Option String)
    (rows : List VideoRecord) : ∀ db : DB,
    processBatch fs upl db rows = db.map (batchEffect fs upl rows) := by
  induction rows with
  | nil =>
    intro db
    show db = List.map (batchEffect fs upl []) db
    exact ((List.map_congr_left (fun a _ => rfl)).trans (List.map_id db)).symm
  | cons row rs ih =>
    intro db
    show processBatch fs upl (applyRow fs upl db row) rs = _
    rw [ih (applyRow fs upl db row), applyRow_eq_map, List.map_map]
    rfl

/-- Whatever the fetched batches were, a completed run maps the store
through a single composite effect satisfying `EffectOk`. -/
theorem runLoop_effect (fs : String → Bool)
    (upl : String → String → String → Option String) (limit : Nat) :
    ∀ (fuel : Nat) (db : DB) (rows : List VideoRecord) (dbF : DB)
      (trace : List VideoRecord),
      runLoop fs upl limit fuel db rows = some (dbF, trace) →
      ∃ e : VideoRecord → VideoRecord, EffectOk fs e ∧ dbF = db.map e := by
  intro fuel
  induction fuel with
  | zero => intro db rows dbF trace h; cases h
  | succ n ih =>
    intro db rows dbF trace h
    cases rows with
    | nil =>
      refine ⟨fun r => r, effectOk_id fs, ?_⟩
      have hdb : dbF = db := by
        simp only [runLoop] at h
        exact (congrArg Prod.fst (Option.some.inj h)).symm
      rw [hdb]
      exact ((List.map_congr_left (fun a _ => rfl)).trans (List.map_id db)).symm
    | cons row rest =>
      simp only [runLoop] at h
      cases hrec : runLoop fs upl limit n (processBatch fs upl db (row :: rest))
          (fetchBatch (processBatch fs upl db (row :: rest))
            (some (lastRec row rest).id) limit) with
      | none => rw [hrec] at h; cases h
      | some p =>
        rw [hrec] at h
        obtain ⟨dbF', trace'⟩ := p
        have hF : dbF = dbF' := (congrArg Prod.fst (Option.some.inj h)).symm
        obtain ⟨e', he', hmap⟩ :=
          ih (processBatch fs upl db (row :: rest)) _ dbF' trace' hrec
        refine ⟨fun r => e' (batchEffect fs upl (row :: rest) r),
          effectOk_comp fs _ _ (batchEffect_effectOk fs upl (row :: rest)) he', ?_⟩
        rw [hF, hmap, processBatch_eq_map, List.map_map]
        rfl

/-- Filtering a mapped list is mapping the list filtered through the
composed test. -/
theorem filter_map_comm (e : VideoRecord → VideoRecord)
    (q : VideoRecord → Bool) :
    ∀ l : List VideoRecord,
      (l.map e).filter q = (l.filter (fun x => q (e x))).map e := by
  intro l
  induction l with
  | nil => rfl
  | cons a l ih =>
    by_cases h : q (e a)
    · simp [List.filter_cons, h, ih]
    · simp [List.filter_cons, h, ih]

theorem map_id_of_mem (e : VideoRecord → VideoRecord)
    (l : List VideoRecord) (h : ∀ x ∈ l, e x = x) : l.map e = l :=
  (List.map_congr_left (fun a ha => (h a ha).trans rfl)).trans (List.map_id l)

theorem forall₂_map_self (R : VideoRecord → VideoRecord → Prop)
    (e : VideoRecord → VideoRecord) :
    ∀ l : List VideoRecord, (∀ x ∈ l, R x (e x)) → List.Forall₂ R l (l.map e) := by
  intro l
  induction l with
  | nil => intro _; exact List.Forall₂.nil
  | cons a l ih =>
    intro h
    exact List.Forall₂.cons (h a (List.mem_cons_self a l))
      (ih (fun x hx => h x (List.mem_cons_of_mem a hx)))

theorem forall₂_trans_of (R : VideoRecord → VideoRecord → Prop)
    (htrans : ∀ a b c, R a b → R b c → R a c) :
    ∀ {l₁ l₂ l₃ : List VideoRecord},
      List.Forall₂ R l₁ l₂ → List.Forall₂ R l₂ l₃ → List.Forall₂ R l₁ l₃ := by
  intro l₁ l₂ l₃ h₁ h₂
  induction h₁ generalizing l₃ with
  | nil => cases h₂; exact List.Forall₂.nil
  | cons hab h ih =>
    cases h₂ with
    | cons hbc h' =>
      exact List.Forall₂.cons (htrans _ _ _ hab hbc) (ih h')

/-- `rows[-1]` is an element of the batch. -/
theorem lastRec_mem : ∀ (l : List VideoRecord) (r : VideoRecord),
    lastRec r l ∈ r :: l := by
  intro l
  induction l with
  | nil => intro r; exact List.mem_cons_self r []
  | cons b bs ih =>
    intro r
    exact List.mem_cons_of_mem r (ih b)

/-- In an id-ascending batch, `rows[-1]` carries the greatest id. -/
theorem le_lastRec_of_pairwise :
    ∀ (l : List VideoRecord) (r : VideoRecord),
      List.Pairwise (fun a b => a.id < b.id) (r :: l) →
      ∀ x ∈ r :: l, x.id ≤ (lastRec r l).id := by
  intro l
  induction l with
  | nil =>
    intro r _ x hx
    rcases List.mem_cons.mp hx with h | h
    · rw [h]
      exact Nat.le_refl _
    · cases h
  | cons b bs ih =>
    intro r hp x hx
    have hp' : List.Pairwise (fun a b => a.id < b.id) (b :: bs) :=
      (List.pairwise_cons.mp hp).2
    have hrb : r.id < b.id :=
      (List.pairwise_cons.mp hp).1 b (List.mem_cons_self b bs)
    rcases List.mem_cons.mp hx with h | h
    · rw [h]
      have hb := ih b hp' b (List.mem_cons_self b bs)
      exact le_trans (le_of_lt hrb) hb
    · exact ih b hp' x h

theorem length_filter_le_of_imp (p q : VideoRecord → Bool) :
    ∀ l : List VideoRecord, (∀ x ∈ l, q x = true → p x = true) →
      (l.filter q).length ≤ (l.filter p).length := by
  intro l
  induction l with
  | nil => intro _; exact Nat.le_refl 0
  | cons a l ih =>
    intro h
    have hl := ih (fun x hx => h x (List.mem_cons_of_mem a hx))
    by_cases hq : q a = true
    · have hp : p a = true := h a (List.mem_cons_self a l) hq
      simp only [List.filter_cons, hq, hp, if_pos, List.length_cons]
      exact Nat.succ_le_succ hl
    · rw [List.filter_cons, if_neg hq]
      by_cases hp : p a = true
      · rw [List.filter_cons, if_pos hp]
        exact Nat.le_succ_of_le hl
      · rw [List.filter_cons, if_neg hp]
        exact hl

theorem length_filter_lt_of_witness (p q : VideoRecord → Bool) :
    ∀ l : List VideoRecord, (∀ x ∈ l, q x = true → p x = true) →
      ∀ x0 ∈ l, p x0 = true → q x0 = false →
      (l.filter q).length < (l.filter p).length := by
  intro l
  induction l with
  | nil => intro _ x0 hx0; cases hx0
  | cons a l ih =>
    intro h x0 hx0 hp0 hq0
    have himp : ∀ x ∈ l, q x = true → p x = true :=
      fun x hx => h x (List.mem_cons_of_mem a hx)
    rcases List.mem_cons.mp hx0 with ha | hmem
    · have hqa : q a = false := by rw [← ha]; exact hq0
      have hpa : p a = true := by rw [← ha]; exact hp0
      rw [List.filter_cons, if_neg (by simp [hqa]), List.filter_cons, if_pos hpa]
      exact Nat.lt_succ_of_le (length_filter_le_of_imp p q l himp)
    · have hlt := ih himp x0 hmem hp0 hq0
      by_cases hqa : q a = true
      · have hpa : p a = true := h a (List.mem_cons_self a l) hqa
        rw [List.filter_cons, if_pos hqa, List.filter_cons, if_pos hpa]
        exact Nat.succ_lt_succ hlt
      · rw [List.filter_cons, if_neg hqa]
        by_cases hpa : p a = true
        · rw [List.filter_cons, if_pos hpa]
          exact Nat.lt_succ_of_lt hlt
        · rw [List.filter_cons, if_neg hpa]
          exact hlt

/-- In a store with pairwise distinct paths, a path identifies its row. -/
theorem paths_unique : ∀ db : DB, PathsDistinct db →
    ∀ x ∈ db, ∀ y ∈ db, x.file_path = y.file_path → x = y := by
  intro db
  induction db with
  | nil => intro _ x hx; cases hx
  | cons a l ih =>
    intro hd x hx y hy hxy
    have hd' : PathsDistinct l := (List.pairwise_cons.mp hd).2
    have hane : ∀ z ∈ l, a.file_path ≠ z.file_path := (List.pairwise_cons.mp hd).1
    rcases List.mem_cons.mp hx with hxa | hxl
    · rcases List.mem_cons.mp hy with hya | hyl
      · rw [hxa, hya]
      · exact absurd (by rw [← hxa]; exact hxy) (hane y hyl)
    · rcases List.mem_cons.mp hy with hya | hyl
      · exact absurd (by rw [hya] at hxy; exact hxy.symm) (hane x hxl)
      · exact ih hd' x hxl y hyl hxy

theorem processBatch_sorted (fs : String → Bool)
    (upl : String → String → String → Option String)
    (db : DB) (rows : List VideoRecord) (hs : DBSorted db) :
    DBSorted (processBatch fs upl db rows) := by
  rw [processBatch_eq_map]
  exact List.pairwise_map.mpr (hs.imp (by
    intro a b hab
    rw [((batchEffect_effectOk fs upl rows) a).1,
        ((batchEffect_effectOk fs upl rows) b).1]
    exact hab))

theorem processBatch_paths (fs : String → Bool)
    (upl : String → String → String → Option String)
    (db : DB) (rows : List VideoRecord) (hd : PathsDistinct db) :
    PathsDistinct (processBatch fs upl db rows) := by
  rw [processBatch_eq_map]
  exact List.pairwise_map.mpr (hd.imp (by
    intro a b hab
    rw [((batchEffect_effectOk fs upl rows) a).2.2.1,
        ((batchEffect_effectOk fs upl rows) b).2.2.1]
    exact hab))

/-- Restricting the pending query by a further test is one combined
filter over the table. -/
theorem filter_pendingFilter (after : Option Nat) (glt : VideoRecord → Bool) :
    ∀ db : DB, (pendingFilter after db).filter glt
      = db.filter (fun x => glt x && (afterP after x && pendingB x)) := by
  intro db
  simp only [pendingFilter]
  rw [List.filter_filter]

/-- After processing a non-empty batch, the refetch query returns exactly
the pending rows the first query would have listed after the batch: the
run loses no pending row and repeats none (given distinct paths). -/
theorem step_filter_eq (fs : String → Bool)
    (upl : String → String → String → Option String) (limit : Nat)
    (db : DB) (after : Option Nat) (hs : DBSorted db) (hd : PathsDistinct db)
    (row : VideoRecord) (rest : List VideoRecord)
    (htake : (pendingFilter after db).take limit = row :: rest) :
    pendingFilter (some (lastRec row rest).id)
        (processBatch fs upl db (row :: rest))
      = (pendingFilter after db).drop limit := by
  have hsubF : ∀ x ∈ row :: rest, x ∈ pendingFilter after db := by
    intro x hx
    rw [← htake] at hx
    exact List.mem_of_mem_take hx
  have hsubdb : ∀ x ∈ row :: rest, x ∈ db := fun x hx =>
    List.mem_of_mem_filter (hsubF x hx)
  have hFsorted : List.Pairwise (fun a b => a.id < b.id) (pendingFilter after db) :=
    List.Pairwise.filter _ hs
  have hrows_sorted : List.Pairwise (fun a b => a.id < b.id) (row :: rest) := by
    rw [← htake]
    exact List.Pairwise.sublist (List.take_sublist _ _) hFsorted
  have hle : ∀ x ∈ row :: rest, x.id ≤ (lastRec row rest).id :=
    le_lastRec_of_pairwise rest row hrows_sorted
  have hlastF : lastRec row rest ∈ pendingFilter after db :=
    hsubF _ (lastRec_mem rest row)
  have hlast_after : afterP after (lastRec row rest) = true := by
    have h' := (List.mem_filter.mp hlastF).2
    exact (Bool.and_eq_true _ _ |>.mp h').1
  have happ : (row :: rest) ++ (pendingFilter after db).drop limit
      = pendingFilter after db := by
    rw [← htake]
    exact List.take_append_drop limit _
  have hcross : ∀ b ∈ (pendingFilter after db).drop limit,
      (lastRec row rest).id < b.id := by
    intro b hb
    have hp : List.Pairwise (fun a b => a.id < b.id)
        ((row :: rest) ++ (pendingFilter after db).drop limit) := by
      rw [happ]
      exact hFsorted
    exact (List.pairwise_append.mp hp).2.2 _ (lastRec_mem rest row) b hb
  have huntouched : ∀ x ∈ db, (lastRec row rest).id < x.id →
      batchEffect fs upl (row :: rest) x = x := by
    intro x hx hgt
    apply batchEffect_not_mem
    intro rowy hrowy heq
    have hxy := paths_unique db hd x hx rowy (hsubdb rowy hrowy) heq
    rw [hxy] at hgt
    exact absurd hgt (Nat.not_lt.mpr (hle rowy hrowy))
  have key : ∀ x ∈ db,
      (afterP (some (lastRec row rest).id) (batchEffect fs upl (row :: rest) x)
        && pendingB (batchEffect fs upl (row :: rest) x))
      = ((fun y => afterP (some (lastRec row rest).id) y) x
        && (afterP after x && pendingB x)) := by
    intro x hx
    by_cases hgt : (lastRec row rest).id < x.id
    · rw [huntouched x hx hgt]
      have haft : afterP after x = true := by
        cases after with
        | none => rfl
        | some a =>
          have h1 : a < (lastRec row rest).id := by
            simpa [afterP] using hlast_after
          simp only [afterP, decide_eq_true_eq]
          omega
      simp [haft]
    · have hid : (batchEffect fs upl (row :: rest) x).id = x.id :=
        ((batchEffect_effectOk fs upl (row :: rest)) x).1
      have h1 : afterP (some (lastRec row rest).id)
          (batchEffect fs upl (row :: rest) x) = false := by
        simp only [afterP, hid, decide_eq_false_iff_not]
        exact hgt
      have h2 : afterP (some (lastRec row rest).id) x = false := by
        simp only [afterP, decide_eq_false_iff_not]
        exact hgt
      simp [h1, h2]
  have hsplit : (pendingFilter after db).filter
      (fun y => afterP (some (lastRec row rest).id) y)
      = (pendingFilter after db).drop limit := by
    have hcong := congrArg
      (List.filter (fun y => afterP (some (lastRec row rest).id) y)) happ
    rw [List.filter_append] at hcong
    have h1 : (row :: rest).filter
        (fun y => afterP (some (lastRec row rest).id) y) = [] := by
      apply List.filter_eq_nil_iff.mpr
      intro a ha
      simp only [afterP, decide_eq_true_eq]
      exact Nat.not_lt.mpr (hle a ha)
    have h2 : ((pendingFilter after db).drop limit).filter
        (fun y => afterP (some (lastRec row rest).id) y)
        = (pendingFilter after db).drop limit := by
      apply List.filter_eq_self.mpr
      intro b hb
      simp only [afterP, decide_eq_true_eq]
      exact hcross b hb
    rw [h1, h2] at hcong
    exact (List.nil_append _ ▸ hcong).symm
  calc pendingFilter (some (lastRec row rest).id)
          (processBatch fs upl db (row :: rest))
      = (db.filter (fun x =>
          afterP (some (lastRec row rest).id) (batchEffect fs upl (row :: rest) x)
          && pendingB (batchEffect fs upl (row :: rest) x))).map
            (batchEffect fs upl (row :: rest)) := by
        simp only [pendingFilter]
        rw [processBatch_eq_map, filter_map_comm]
    _ = (db.filter (fun x => (fun y => afterP (some (lastRec row rest).id) y) x
          && (afterP after x && pendingB x))).map
            (batchEffect fs upl (row :: rest)) := by
        rw [List.filter_congr key]
    _ = ((pendingFilter after db).filter
          (fun y => afterP (some (lastRec row rest).id) y)).map
            (batchEffect fs upl (row :: rest)) := by
        rw [filter_pendingFilter]
    _ = ((pendingFilter after db).drop limit).map
          (batchEffect fs upl (row :: rest)) := by rw [hsplit]
    _ = (pendingFilter after db).drop limit := by
        apply map_id_of_mem
        intro b hb
        have hbF : b ∈ pendingFilter after db := by
          rw [← happ]
          exact List.mem_append_right _ hb
        exact huntouched b (List.mem_of_mem_filter hbF) (hcross b hb)

/-- Pagination completeness for the loop: with enough fuel, a run seeded
at `after` over an id-sorted, path-distinct store processes exactly the
pending rows beyond `after`, in store order, and stops at an empty fetch. -/
theorem runLoop_trace (fs : String → Bool)
    (upl : String → String → String → Option String) (limit : Nat)
    (hlim : 0 < limit) :
    ∀ (fuel : Nat) (db : DB) (after : Option Nat),
      DBSorted db → PathsDistinct db →
      (pendingFilter after db).length < fuel →
      ∃ dbF : DB, runLoop fs upl limit fuel db (fetchBatch db after limit)
        = some (dbF, pendingFilter after db) := by
  intro fuel
  induction fuel with
  | zero =>
    intro db after _ _ hlen
    cases Nat.not_lt_zero _ hlen
  | succ n ih =>
    intro db after hs hd hlen
    cases htake : (pendingFilter after db).take limit with
    | nil =>
      have hF : pendingFilter after db = [] := by
        rcases List.take_eq_nil_iff.mp htake with h | h
        · exact absurd h (Nat.ne_of_gt hlim)
        · exact h
      refine ⟨db, ?_⟩
      show runLoop fs upl limit (n + 1) db ((pendingFilter after db).take limit) = _
      rw [htake, hF]
      rfl
    | cons row rest =>
      have hFne : pendingFilter after db ≠ [] := by
        intro h
        rw [h] at htake
        simp at htake
      have hstep := step_filter_eq fs upl limit db after hs hd row rest htake
      have hlen' : (pendingFilter (some (lastRec row rest).id)
          (processBatch fs upl db (row :: rest))).length < n := by
        rw [hstep, List.length_drop]
        have hpos : 0 < (pendingFilter after db).length := List.length_pos.mpr hFne
        have hle_n : (pendingFilter after db).length ≤ n := Nat.lt_succ_iff.mp hlen
        omega
      obtain ⟨dbF, hrec⟩ := ih (processBatch fs upl db (row :: rest))
        (some (lastRec row rest).id)
        (processBatch_sorted fs upl db _ hs)
        (processBatch_paths fs upl db _ hd) hlen'
      refine ⟨dbF, ?_⟩
      show runLoop fs upl limit (n + 1) db ((pendingFilter after db).take limit) = _
      rw [htake]
      simp only [runLoop]
      rw [hrec]
      show some (dbF, (row :: rest) ++ pendingFilter (some (lastRec row rest).id)
        (processBatch fs upl db (row :: rest))) = _
      rw [hstep,
        show (row :: rest) ++ (pendingFilter after db).drop limit
            = pendingFilter after db from by
          rw [← htake]
          exact List.take_append_drop limit _]

/-- Termination for an arbitrary finite store: the cursor is the id of the
last fetched row and every later pending row sits strictly beyond it, so
the pending count beyond the cursor strictly shrinks and
`pendingFilter.length + 1` fuel always suffices — no sortedness or path
hypotheses needed. -/
theorem runLoop_terminates (fs : String → Bool)
    (upl : String → String → String → Option String) (limit : Nat) :
    ∀ (fuel : Nat) (db : DB) (after : Option Nat),
      (pendingFilter after db).length < fuel →
      ∃ res : DB × List VideoRecord,
        runLoop fs upl limit fuel db (fetchBatch db after limit) = some res := by
  intro fuel
  induction fuel with
  | zero =>
    intro db after hlen
    cases Nat.not_lt_zero _ hlen
  | succ n ih =>
    intro db after hlen
    cases htake : (pendingFilter after db).take limit with
    | nil =>
      refine ⟨(db, []), ?_⟩
      show runLoop fs upl limit (n + 1) db ((pendingFilter after db).take limit) = _
      rw [htake]
      rfl
    | cons row rest =>
      have hsubF : ∀ x ∈ row :: rest, x ∈ pendingFilter after db := by
        intro x hx
        rw [← htake] at hx
        exact List.mem_of_mem_take hx
      have hsubdb : ∀ x ∈ row :: rest, x ∈ db := fun x hx =>
        List.mem_of_mem_filter (hsubF x hx)
      have hlast_pred := (List.mem_filter.mp (hsubF _ (lastRec_mem rest row))).2
      have hlast_after : afterP after (lastRec row rest) = true :=
        ((Bool.and_eq_true _ _).mp hlast_pred).1
      have hmapped : pendingFilter (some (lastRec row rest).id)
          (processBatch fs upl db (row :: rest))
          = (db.filter (fun x =>
              afterP (some (lastRec row rest).id)
                  (batchEffect fs upl (row :: rest) x)
                && pendingB (batchEffect fs upl (row :: rest) x))).map
              (batchEffect fs upl (row :: rest)) := by
        simp only [pendingFilter]
        rw [processBatch_eq_map, filter_map_comm]
      have himp : ∀ x ∈ db,
          (afterP (some (lastRec row rest).id) (batchEffect fs upl (row :: rest) x)
            && pendingB (batchEffect fs upl (row :: rest) x)) = true →
          (afterP after x && pendingB x) = true := by
        intro x _ hq
        obtain ⟨hq1, hq2⟩ := (Bool.and_eq_true _ _).mp hq
        obtain ⟨hid, hurl, _, hlink, _⟩ := (batchEffect_effectOk fs upl (row :: rest)) x
        have hgt : (lastRec row rest).id < x.id := by
          have := hq1
          simp only [afterP, hid, decide_eq_true_eq] at this
          exact this
        have hpend : pendingB x = true := by
          rcases hlink with heq | ⟨l, hl, _⟩
          · unfold pendingB at hq2 ⊢
            rw [heq, hurl] at hq2
            exact hq2
          · unfold pendingB at hq2
            rw [hl] at hq2
            simp at hq2
        have haft : afterP after x = true := by
          cases after with
          | none => rfl
          | some a =>
            have h1 : a < (lastRec row rest).id := by
              simpa [afterP] using hlast_after
            simp only [afterP, decide_eq_true_eq]
            omega
        rw [haft, hpend]
        rfl
      have hwitness : (afterP (some (lastRec row rest).id)
          (batchEffect fs upl (row :: rest) (lastRec row rest))
          && pendingB (batchEffect fs upl (row :: rest) (lastRec row rest))) = false := by
        have hid := ((batchEffect_effectOk fs upl (row :: rest)) (lastRec row rest)).1
        have h1 : afterP (some (lastRec row rest).id)
            (batchEffect fs upl (row :: rest) (lastRec row rest)) = false := by
          simp only [afterP, hid, decide_eq_false_iff_not]
          exact Nat.lt_irrefl _
        rw [h1]
        rfl
      have hlen' : (pendingFilter (some (lastRec row rest).id)
          (processBatch fs upl db (row :: rest))).length < n := by
        rw [hmapped, List.length_map]
        have hlt := length_filter_lt_of_witness
          (fun x => afterP after x && pendingB x)
          (fun x => afterP (some (lastRec row rest).id)
              (batchEffect fs upl (row :: rest) x)
            && pendingB (batchEffect fs upl (row :: rest) x))
          db himp (lastRec row rest) (hsubdb _ (lastRec_mem rest row))
          hlast_pred hwitness
        have hle_n : (List.filter (fun x => afterP after x && pendingB x) db).length ≤ n :=
          Nat.lt_succ_iff.mp hlen
        omega
      obtain ⟨res, hrec⟩ := ih (processBatch fs upl db (row :: rest))
        (some (lastRec row rest).id) hlen'
      refine ⟨(res.1, (row :: rest) ++ res.2), ?_⟩
      show runLoop fs upl limit (n + 1) db ((pendingFilter after db).take limit) = _
      rw [htake]
      simp only [runLoop]
      rw [hrec]

/-- C4: in a fetched batch of three records whose second upload fails, the
first and third are still processed to completion and their vimeo_link is
written back; the run does not abort, processing the whole batch and the
following (empty) batch and returning normally with the failed record
still pending. -/
theorem claim_C4_failure_isolation :
    process_videos_from_database fsAll clientFail2 dbC4 10 5
      = some ([⟨1, some "u1", "f1", "t1", "d1", some "L-uri-f1"⟩,
               ⟨2, some "u2", "f2", "t2", "d2", none⟩,
               ⟨3, some "u3", "f3", "t3", "d3", some "L-uri-f3"⟩], dbC4)
    ∧ uploadFn clientFail2 "f2" "t2" "d2" = none := by
  exact ⟨rfl, rfl⟩

/-- C5: a record whose file is absent at processing time triggers no
upload call and no store mutation: the whole run leaves every such record
byte-for-byte unchanged (hence still pending), and the record is never
among the rows on which the upload capability was invoked; re-running on
the resulting store repeats this verbatim. -/
theorem claim_C5_missing_file_skip (fs : String → Bool) (client : VimeoClient)
    (db : DB) (B fuel : Nat) (dbF : DB) (trace : List VideoRecord)
    (hrun : process_videos_from_database fs client db B fuel = some (dbF, trace)) :
    List.Forall₂ (fun a b => fs a.file_path = false → b = a) db dbF
    ∧ ∀ r : VideoRecord, fs r.file_path = false →
        r ∉ attemptedUploads fs trace := by
  obtain ⟨e, he, hmap⟩ :=
    runLoop_effect fs (uploadFn client) B fuel db _ dbF trace hrun
  constructor
  · rw [hmap]
    exact forall₂_map_self _ e db (fun x _ hfs => ((he x).2.2.2.2 hfs))
  · intro r hfs hmem
    have h := (List.mem_filter.mp hmem).2
    rw [hfs] at h
    cases h

theorem claim_C5_missing_file_skip_witness :
    List.Forall₂ (fun a b => fsNoMissing a.file_path = false → b = a) dbC5 dbC5
    ∧ ∀ r : VideoRecord, fsNoMissing r.file_path = false →
        r ∉ attemptedUploads fsNoMissing dbC5 :=
  claim_C5_missing_file_skip fsNoMissing clientOk dbC5 10 5 dbC5 dbC5 rfl

/-- C6: `upload_video` converts every error raised by the transfer, the
visibility update or the link retrieval into `none` instead of
propagating it, passes a successful payload through unchanged, and the
pipeline turns an uploader returning no link into skip-and-continue (the
store is left untouched for that row). -/
theorem claim_C6_upload_never_raises (client : VimeoClient) (p t d : String) :
    (∀ err : String, upload_video_steps client p t d = Except.error err →
      upload_video client p t d = none)
    ∧ (∀ l : Option String, upload_video_steps client p t d = Except.ok l →
      upload_video client p t d = l)
    ∧ (∀ (fs : String → Bool) (upl : String → String → String → Option String)
        (db : DB) (row : VideoRecord), fs row.file_path = true →
        upl row.file_path row.title row.description = none →
        applyRow fs upl db row = db) := by
  refine ⟨?_, ?_, ?_⟩
  · intro err herr
    unfold upload_video
    rw [herr]
  · intro l hok
    unfold upload_video
    rw [hok]
  · intro fs upl db row hfs hupl
    unfold applyRow
    rw [hfs, hupl]
    simp

theorem claim_C6_upload_never_raises_witness :
    upload_video clientDown "x" "t" "d" = none :=
  (claim_C6_upload_never_raises clientDown "x" "t" "d").1 "refused" rfl

/-- C7: across a whole run, each record's vimeo_link either keeps its
value or is set to a truthy (non-empty) string: the run never writes null
into vimeo_link and never resets a non-null vimeo_link back to null. -/
theorem claim_C7_link_never_reset (fs : String → Bool) (client : VimeoClient)
    (db : DB) (B fuel : Nat) (dbF : DB) (trace : List VideoRecord)
    (hrun : process_videos_from_database fs client db B fuel = some (dbF, trace)) :
    List.Forall₂ (fun a b =>
      (b.vimeo_link = a.vimeo_link ∨ ∃ l : String, b.vimeo_link = some l ∧ l ≠ "")
      ∧ (b.vimeo_link = none → a.vimeo_link = none)) db dbF := by
  obtain ⟨e, he, hmap⟩ :=
    runLoop_effect fs (uploadFn client) B fuel db _ dbF trace hrun
  rw [hmap]
  apply forall₂_map_self
  intro x _
  obtain ⟨_, _, _, hlink, _⟩ := he x
  refine ⟨hlink, ?_⟩
  intro hnone
  rcases hlink with heq | ⟨l, hl, _⟩
  · rw [← heq]
    exact hnone
  · rw [hl] at hnone
    cases hnone

theorem claim_C7_link_never_reset_witness :
    List.Forall₂ (fun a b =>
      (b.vimeo_link = a.vimeo_link ∨ ∃ l : String, b.vimeo_link = some l ∧ l ≠ "")
      ∧ (b.vimeo_link = none → a.vimeo_link = none)) dbC1 dbC1' :=
  claim_C7_link_never_reset fsAll clientFail1 dbC1 10 5 dbC1' dbC1 rfl

/-- C8 counterexample: on a store where rows 1 and 2 share the path "p",
the write-back keyed by that path changes two rows, not exactly one, so
the single-row claim fails at this store. -/
theorem claim_C8_single_row_counterexample :
    update_video_with_vimeo_link dbPair "p" (some "L")
      = [⟨1, some "u1", "p", "t1", "d1", some "L"⟩,
         ⟨2, some "u2", "p", "t2", "d2", some "L"⟩]
    ∧ ((update_video_with_vimeo_link dbPair "p" (some "L")).zip dbPair).countP
        (fun ab => ab.1 != ab.2) = 2 := by
  exact ⟨rfl, rfl⟩

/-- C8 amended: the write-back is keyed by file_path and updates the
vimeo_link of every row whose file_path equals the key — exactly one row
when exactly one row carries that path — leaving every other row, and
every other field of the matching rows, unchanged. -/
theorem claim_C8_update_frame (db : DB) (fp : String) (link : Option String) :
    List.Forall₂ (fun a b =>
      (a.file_path = fp → b = { a with vimeo_link := link })
      ∧ (a.file_path ≠ fp → b = a)) db (update_video_with_vimeo_link db fp link) := by
  unfold update_video_with_vimeo_link
  apply forall₂_map_self
  intro x _
  constructor
  · intro h
    simp [h]
  · intro h
    simp [h]

theorem claim_C8_update_frame_witness :
    List.Forall₂ (fun a b =>
      (a.file_path = "p" → b = { a with vimeo_link := some "L" })
      ∧ (a.file_path ≠ "p" → b = a)) dbPair
      (update_video_with_vimeo_link dbPair "p" (some "L")) :=
  claim_C8_update_frame dbPair "p" (some "L")

/-- C10: `get_video_path` returns the file_path of a matching record when
one exists, returns none when no record's upload_url equals the query, and
(being a pure query in this embedding) neither raises nor mutates. -/
theorem claim_C10_get_video_path (db : DB) (url : String) :
    ((∃ r ∈ db, r.upload_url = some url) →
      ∃ r ∈ db, r.upload_url = some url ∧ get_video_path db url = some r.file_path)
    ∧ ((∀ r ∈ db, r.upload_url ≠ some url) → get_video_path db url = none) := by
  constructor
  · rintro ⟨r, hr, hurl⟩
    cases hfind : List.find? (fun x => x.upload_url == some url) db with
    | none =>
      have h := List.find?_eq_none.mp hfind r hr
      rw [hurl] at h
      simp at h
    | some r0 =>
      refine ⟨r0, List.mem_of_find?_eq_some hfind, ?_, ?_⟩
      · have h := List.find?_some hfind
        simpa using h
      · unfold get_video_path
        rw [hfind]
        rfl
  · intro h
    unfold get_video_path
    rw [List.find?_eq_none.mpr (fun x hx => by simpa using h x hx)]
    rfl

theorem claim_C10_get_video_path_witness :
    (∃ r ∈ dbC5, r.upload_url = some "u1"
      ∧ get_video_path dbC5 "u1" = some r.file_path)
    ∧ get_video_path dbC5 "zzz" = none :=
  ⟨(claim_C10_get_video_path dbC5 "u1").1
      ⟨⟨1, some "u1", "missing", "t1", "d1", none⟩, by decide, by decide⟩,
   (claim_C10_get_video_path dbC5 "zzz").2 (by decide)⟩

/-- A pending record above every completed id passes the truthiness-
filtered resume cursor of a fresh run. -/
theorem afterP_firstAfter_of_below (db : DB) (r : VideoRecord)
    (hbelow : ∀ c ∈ db, c.vimeo_link ≠ none → c.id < r.id) :
    afterP (firstAfter (get_last_processed_video db)) r = true := by
  cases hlast : get_last_processed_video db with
  | none => rfl
  | some m =>
    have hm_mem : m ∈ List.map (fun x => x.id)
        (List.filter (fun x => x.vimeo_link.isSome) db) :=
      List.max?_mem (fun a b => max_choice a b) hlast
    obtain ⟨c, hcmem, hcid⟩ := List.mem_map.mp hm_mem
    have hcdb : c ∈ db := List.mem_of_mem_filter hcmem
    have hclink : c.vimeo_link ≠ none := by
      have h := (List.mem_filter.mp hcmem).2
      intro hnone
      rw [hnone] at h
      cases h
    have hmlt : m < r.id := by
      rw [← hcid]
      exact hbelow c hcdb hclink
    show afterP (if m = 0 then none else some m) r = true
    by_cases hm0 : m = 0
    · rw [if_pos hm0]
      rfl
    · rw [if_neg hm0]
      simp only [afterP, decide_eq_true_eq]
      exact hmlt

/-- C1 counterexample: from `dbC1` (records 1 and 2 both pending), one run
whose upload fails for record 1 but succeeds for record 2 ends with record
1 pending and record 2 completed at a greater id; the subsequent run
fetches nothing at all (empty trace), so the failed record is never
fetched or attempted again. -/
theorem claim_C1_retry_counterexample :
    process_videos_from_database fsAll clientFail1 dbC1 10 5 = some (dbC1', dbC1)
    ∧ pendingB ⟨1, some "u1", "f1", "t1", "d1", none⟩ = true
    ∧ (∃ c ∈ dbC1', c.vimeo_link ≠ none ∧ 1 < c.id)
    ∧ process_videos_from_database fsAll clientFail1 dbC1' 10 5 = some (dbC1', []) := by
  refine ⟨rfl, rfl, ?_, rfl⟩
  exact ⟨⟨2, some "u2", "f2", "t2", "d2", some "L-uri-f2"⟩, by decide, by decide,
    by decide⟩

/-- C1 amended: over an id-sorted store whose file_paths are pairwise
distinct (the write-back is keyed by file_path, so a duplicated path can
complete a record that was never fetched), a pending record r becomes
eligible again on a future run exactly while the resume point stays below
it: whenever every completed record's id is smaller than r.id, the next
run's fetches include r, and r is re-attempted provided its file exists;
once any record with id above r.id has completed, r is no longer fetched
(see the counterexample). -/
theorem claim_C1_retry_amended (fs : String → Bool) (client : VimeoClient)
    (db : DB) (B fuel : Nat) (r : VideoRecord)
    (hs : DBSorted db) (hd : PathsDistinct db)
    (hr : r ∈ db) (hpend : pendingB r = true)
    (hbelow : ∀ c ∈ db, c.vimeo_link ≠ none → c.id < r.id)
    (hB : 0 < B) (hfuel : (pendingAboveResume db).length < fuel) :
    ∃ dbF : DB, process_videos_from_database fs client db B fuel
        = some (dbF, pendingAboveResume db)
      ∧ r ∈ pendingAboveResume db
      ∧ (fs r.file_path = true →
          r ∈ attemptedUploads fs (pendingAboveResume db)) := by
  obtain ⟨dbF, hrun⟩ := runLoop_trace fs (uploadFn client) B hB fuel db
    (firstAfter (get_last_processed_video db)) hs hd hfuel
  have hmem : r ∈ pendingAboveResume db := by
    apply List.mem_filter.mpr
    refine ⟨hr, ?_⟩
    rw [afterP_firstAfter_of_below db r hbelow, hpend]
    rfl
  exact ⟨dbF, hrun, hmem, fun hfs => List.mem_filter.mpr ⟨hmem, hfs⟩⟩

theorem claim_C1_retry_amended_witness :
    ∃ dbF : DB, process_videos_from_database fsAll clientOk dbC1b 10 2
        = some (dbF, pendingAboveResume dbC1b)
      ∧ (⟨2, some "u2", "g2", "t2", "d2", none⟩ : VideoRecord)
          ∈ pendingAboveResume dbC1b
      ∧ (fsAll "g2" = true →
          (⟨2, some "u2", "g2", "t2", "d2", none⟩ : VideoRecord)
            ∈ attemptedUploads fsAll (pendingAboveResume dbC1b)) :=
  claim_C1_retry_amended fsAll clientOk dbC1b 10 2
    ⟨2, some "u2", "g2", "t2", "d2", none⟩ (by decide) (by decide) (by decide)
    (by decide) (by decide) (by decide) (by decide)

/-- C2: on the canonical store (1..5 completed, 6..10 pending) the resume
point is 5 and the first fetch is records 6..10 cut to the batch limit,
all with id above 5; in general the resume query yields none exactly when
no record has a non-null link, and otherwise the maximum completed id. -/
theorem claim_C2_resume_and_first_fetch :
    get_last_processed_video dbC2 = some 5
    ∧ (∀ B : Nat, fetchBatch dbC2 (firstAfter (get_last_processed_video dbC2)) B
        = pendC2.take B)
    ∧ (∀ B : Nat,
        ∀ r ∈ fetchBatch dbC2 (firstAfter (get_last_processed_video dbC2)) B,
        5 < r.id)
    ∧ (∀ db : DB, get_last_processed_video db = none ↔
        ∀ r ∈ db, r.vimeo_link = none)
    ∧ (∀ (db : DB) (m : Nat), get_last_processed_video db = some m →
        (∃ c ∈ db, c.vimeo_link ≠ none ∧ c.id = m)
        ∧ ∀ c ∈ db, c.vimeo_link ≠ none → c.id ≤ m) := by
  have hPF : pendingFilter (firstAfter (get_last_processed_video dbC2)) dbC2
      = pendC2 := by decide
  refine ⟨rfl, ?_, ?_, ?_, ?_⟩
  · intro B
    show (pendingFilter (firstAfter (get_last_processed_video dbC2)) dbC2).take B = _
    rw [hPF]
  · intro B r hr
    have hr' : r ∈ pendC2 := by
      have heq : fetchBatch dbC2 (firstAfter (get_last_processed_video dbC2)) B
          = pendC2.take B := by
        show (pendingFilter (firstAfter (get_last_processed_video dbC2)) dbC2).take B = _
        rw [hPF]
      rw [heq] at hr
      exact List.mem_of_mem_take hr
    have hall : ∀ x ∈ pendC2, 5 < x.id := by decide
    exact hall r hr'
  · intro db
    unfold get_last_processed_video
    rw [List.max?_eq_none_iff]
    constructor
    · intro h r hrdb
      by_contra hne
      have hsome : r.vimeo_link.isSome = true := by
        cases hv : r.vimeo_link with
        | none => exact absurd hv hne
        | some _ => rfl
      have hmem : r.id ∈ List.map (fun x => x.id)
          (List.filter (fun x => x.vimeo_link.isSome) db) :=
        List.mem_map.mpr ⟨r, List.mem_filter.mpr ⟨hrdb, hsome⟩, rfl⟩
      rw [h] at hmem
      cases hmem
    · intro h
      rw [show List.filter (fun x => x.vimeo_link.isSome) db = [] from
        List.filter_eq_nil_iff.mpr (fun a ha => by rw [h a ha]; simp)]
      rfl
  · intro db m hm
    obtain ⟨hmem, hbound⟩ := (List.max?_eq_some_iff (fun a : Nat => Nat.le_refl a)
      (fun a b : Nat => max_choice a b) (fun a b c : Nat => max_le_iff)).mp hm
    obtain ⟨c, hcmem, hcid⟩ := List.mem_map.mp hmem
    constructor
    · refine ⟨c, List.mem_of_mem_filter hcmem, ?_, hcid⟩
      have h := (List.mem_filter.mp hcmem).2
      intro hnone
      rw [hnone] at h
      cases h
    · intro c' hc' hlink
      apply hbound
      apply List.mem_map.mpr
      refine ⟨c', List.mem_filter.mpr ⟨hc', ?_⟩, rfl⟩
      cases hv : c'.vimeo_link with
      | none => exact absurd hv hlink
      | some _ => rfl

theorem claim_C2_resume_and_first_fetch_witness :
    fetchBatch dbC2 (firstAfter (get_last_processed_video dbC2)) 3 = pendC2.take 3
    ∧ get_last_processed_video ([] : DB) = none :=
  ⟨claim_C2_resume_and_first_fetch.2.1 3,
   (claim_C2_resume_and_first_fetch.2.2.2.1 ([] : DB)).mpr
     (fun r hr => absurd hr (List.not_mem_nil r))⟩

/-- C3 counterexample: `dbPair` holds two pending records sharing one
file_path and no outside writer acts, yet with batch size 1 the run yields
only one of its two pending records (the write-back keyed by path
completes the second record before it is ever fetched), so the fetched
trace is not the pending list. -/
theorem claim_C3_pagination_counterexample :
    (pendingAboveResume dbPair).length = 2
    ∧ process_videos_from_database fsAll clientOk dbPair 1 5
        = some ([⟨1, some "u1", "p", "t1", "d1", some "L-uri-p"⟩,
                 ⟨2, some "u2", "p", "t2", "d2", some "L-uri-p"⟩],
                [⟨1, some "u1", "p", "t1", "d1", none⟩])
    ∧ (process_videos_from_database fsAll clientOk dbPair 1 5).map
        (fun res => res.2) ≠ some (pendingAboveResume dbPair) := by
  refine ⟨rfl, rfl, ?_⟩
  decide

/-- C3 amended: over an id-sorted store whose file_paths are pairwise
distinct (so the run's own path-keyed write-backs cannot complete a record
it has not fetched), a run with positive batch size and sufficient fuel
fetches exactly the pending records above the resume point — each exactly
once, in ascending id order — and stops at an empty fetch. -/
theorem claim_C3_pagination_amended (fs : String → Bool) (client : VimeoClient)
    (db : DB) (B fuel : Nat)
    (hs : DBSorted db) (hd : PathsDistinct db) (hB : 0 < B)
    (hfuel : (pendingAboveResume db).length < fuel) :
    ∃ dbF : DB, process_videos_from_database fs client db B fuel
        = some (dbF, pendingAboveResume db)
      ∧ List.Pairwise (fun a b => a.id < b.id) (pendingAboveResume db)
      ∧ (∀ r : VideoRecord, r ∈ pendingAboveResume db ↔
          r ∈ db ∧ afterP (firstAfter (get_last_processed_video db)) r = true
            ∧ pendingB r = true) := by
  obtain ⟨dbF, hrun⟩ := runLoop_trace fs (uploadFn client) B hB fuel db
    (firstAfter (get_last_processed_video db)) hs hd hfuel
  refine ⟨dbF, hrun, List.Pairwise.filter _ hs, ?_⟩
  intro r
  constructor
  · intro h
    have h' := List.mem_filter.mp h
    exact ⟨h'.1, ((Bool.and_eq_true _ _).mp h'.2).1,
      ((Bool.and_eq_true _ _).mp h'.2).2⟩
  · rintro ⟨h1, h2, h3⟩
    apply List.mem_filter.mpr
    refine ⟨h1, ?_⟩
    rw [h2, h3]
    rfl

theorem claim_C3_pagination_amended_witness :
    ∃ dbF : DB, process_videos_from_database fsAll clientOk dbC2 2 6
        = some (dbF, pendingAboveResume dbC2)
      ∧ List.Pairwise (fun a b => a.id < b.id) (pendingAboveResume dbC2)
      ∧ (∀ r : VideoRecord, r ∈ pendingAboveResume dbC2 ↔
          r ∈ dbC2 ∧ afterP (firstAfter (get_last_processed_video dbC2)) r = true
            ∧ pendingB r = true) :=
  claim_C3_pagination_amended fsAll clientOk dbC2 2 6 (by decide) (by decide)
    (by decide) (by decide)

/-- C9: when no record is pending above the resume point, a run fetches
nothing, performs zero upload calls and returns at once with the store
untouched; in general the loop always terminates on a finite store, with
one more fuel than the pending count beyond the seed sufficing, because
every batch is non-empty and the cursor strictly increases. -/
theorem claim_C9_termination (fs : String → Bool) (client : VimeoClient)
    (db : DB) (B fuel : Nat) :
    (pendingAboveResume db = [] →
      process_videos_from_database fs client db B (fuel + 1) = some (db, []))
    ∧ ((pendingAboveResume db).length < fuel →
      ∃ res : DB × List VideoRecord,
        process_videos_from_database fs client db B fuel = some res) := by
  constructor
  · intro h
    have h' : pendingFilter (firstAfter (get_last_processed_video db)) db = [] := h
    show runLoop fs (uploadFn client) B (fuel + 1) db
      ((pendingFilter (firstAfter (get_last_processed_video db)) db).take B) = _
    rw [h', List.take_nil]
    rfl
  · intro h
    exact runLoop_terminates fs (uploadFn client) B fuel db
      (firstAfter (get_last_processed_video db)) h

theorem claim_C9_termination_witness :
    process_videos_from_database fsAll clientOk dbC1' 10 (0 + 1) = some (dbC1', [])
    ∧ ∃ res : DB × List VideoRecord,
        process_videos_from_database fsAll clientOk dbC2 10 6 = some res :=
  ⟨(claim_C9_termination fsAll clientOk dbC1' 10 0).1 (by decide),
   (claim_C9_termination fsAll clientOk dbC2 10 6).2 (by decide)⟩

end VimeoUploader
